/-
Verification of the segmented-download engine of arMa.py.

This file gives a shallow embedding of the functions of src/arMa.py that the
specification talks about, and proves or refutes the specified properties.
Filesystem state is modelled as a partial map from path strings to byte lists
(for the byte-level fetcher) or as a list of existing path strings (for the
existence-only operations).  HTTP traffic is modelled by the per-attempt
response the network hands to the code: status, Content-Length header, the
delivered chunks, and whether the connection died mid-transfer.
-/
import Mathlib

namespace ArMa

/-! ## Decimal representation of naturals

`ensure_unique_filename` builds candidate names `f"{base}_{counter}{ext}"`.
To reason about the loop we need that distinct counters give distinct
strings, i.e. that `Nat.repr` is injective.  We prove it by evaluating the
digit list produced by `Nat.toDigitsCore` back to the number. -/

/-- Numeric value of a decimal digit character (`ord(c) - ord('0')`). -/
def charVal (c : Char) : Nat := c.toNat - 48

/-- Value of a most-significant-first decimal digit string. -/
def digitsVal (l : List Char) : Nat := l.foldl (fun a c => 10 * a + charVal c) 0

theorem toDigitsCore_append (b : Nat) :
    ∀ (fuel n : Nat) (ds : List Char),
      Nat.toDigitsCore b fuel n ds = Nat.toDigitsCore b fuel n [] ++ ds := by
  intro fuel
  induction fuel with
  | zero => intro n ds; simp [Nat.toDigitsCore]
  | succ fuel ih =>
    intro n ds
    simp only [Nat.toDigitsCore]
    by_cases h : n / b = 0
    · simp [h]
    · simp only [h, if_false]
      rw [ih (n / b) (Nat.digitChar (n % b) :: ds), ih (n / b) [Nat.digitChar (n % b)],
        List.append_assoc]
      rfl

theorem charVal_digitChar (d : Nat) (h : d < 10) : charVal (Nat.digitChar d) = d := by
  interval_cases d <;> rfl

theorem digitsVal_append_singleton (l : List Char) (c : Char) :
    digitsVal (l ++ [c]) = 10 * digitsVal l + charVal c := by
  simp [digitsVal, List.foldl_append]

theorem digitsVal_toDigitsCore :
    ∀ (fuel n : Nat), n < 10 ^ fuel → digitsVal (Nat.toDigitsCore 10 fuel n []) = n := by
  intro fuel
  induction fuel with
  | zero =>
    intro n h
    simp only [pow_zero, Nat.lt_one_iff] at h
    subst h
    rfl
  | succ fuel ih =>
    intro n h
    simp only [Nat.toDigitsCore]
    by_cases h0 : n / 10 = 0
    · have hn : n < 10 := by omega
      have hm : n % 10 = n := Nat.mod_eq_of_lt hn
      simp only [h0, if_true]
      show digitsVal [Nat.digitChar (n % 10)] = n
      simp [digitsVal, hm, charVal_digitChar n hn]
    · have hdiv : n / 10 < 10 ^ fuel := by
        rw [Nat.div_lt_iff_lt_mul (by norm_num : (0:Nat) < 10)]
        calc n < 10 ^ (fuel + 1) := h
        _ = 10 ^ fuel * 10 := by ring
      simp only [h0, if_false]
      rw [toDigitsCore_append 10 fuel (n / 10) [Nat.digitChar (n % 10)],
        digitsVal_append_singleton, ih (n / 10) hdiv,
        charVal_digitChar (n % 10) (Nat.mod_lt n (by norm_num))]
      exact Nat.div_add_mod n 10

theorem digitsVal_toDigits (n : Nat) : digitsVal (Nat.toDigits 10 n) = n := by
  have h : n < 10 ^ (n + 1) := by
    calc n < 10 ^ n := Nat.lt_pow_self (by norm_num) n
    _ ≤ 10 ^ (n + 1) := Nat.pow_le_pow_right (by norm_num) (Nat.le_succ n)
  exact digitsVal_toDigitsCore (n + 1) n h

theorem Nat_repr_injective : Function.Injective Nat.repr := by
  intro m n h
  have hdata : (Nat.toDigits 10 m) = (Nat.toDigits 10 n) := by
    have := congrArg String.data h
    simpa [Nat.repr, List.asString] using this
  have := congrArg digitsVal hdata
  rwa [digitsVal_toDigits, digitsVal_toDigits] at this

/-! ## Filename helpers

Source: `ensure_unique_filename(directory, filename, extension)` at
src/arMa.py lines 47-54.  A directory's contents are modelled as the list of
path strings that exist (`os.path.exists p` is `p ∈ fs`), and
`os.path.join(directory, name)` as `directory ++ "/" ++ name`. -/

/-- Path of the first candidate, `os.path.join(directory, filename + extension)`. -/
def plainName (directory filename extension : String) : String :=
  directory ++ "/" ++ (filename ++ extension)

/-- Path of the counter-suffixed candidate,
`os.path.join(directory, f"{base_name}_{counter}{extension}")`. -/
def suffixedName (directory base_name : String) (counter : Nat) (extension : String) : String :=
  directory ++ "/" ++ (base_name ++ "_" ++ Nat.repr counter ++ extension)

/-- The `while os.path.exists(candidate)` loop of `ensure_unique_filename`,
embedded with explicit fuel.  Each iteration tries the next counter-suffixed
candidate.  `euf_loop_spec` below shows that fuel `fs.length + 1` always
suffices, so the fuel-exhausted branch (returning `""`) is unreachable. -/
def euf_loop (fs : List String) (directory base_name extension : String) :
    Nat → Nat → String
  | _, 0 => ""
  | counter, fuel + 1 =>
    let candidate := suffixedName directory base_name counter extension
    if candidate ∈ fs then euf_loop fs directory base_name extension (counter + 1) fuel
    else candidate

/-- `ensure_unique_filename` (src/arMa.py lines 47-54): return the requested
path if nothing exists there, otherwise the first free counter-suffixed
candidate, counting from 1. -/
def ensure_unique_filename (fs : List String) (directory filename extension : String) :
    String :=
  let candidate := plainName directory filename extension
  if candidate ∈ fs then euf_loop fs directory filename extension 1 (fs.length + 1)
  else candidate

theorem suffixedName_injective (d b e : String) :
    Function.Injective fun k => suffixedName d b k e := by
  intro k1 k2 h
  have hdata := congrArg String.data h
  simp only [suffixedName, String.data_append, List.append_assoc] at hdata
  have h1 := List.append_cancel_left hdata
  have h2 := List.append_cancel_left h1
  have h3 := List.append_cancel_left h2
  have h4 := List.append_cancel_left h3
  have h5 : (Nat.repr k1).data = (Nat.repr k2).data := List.append_cancel_right h4
  exact Nat_repr_injective (String.ext h5)

theorem exists_free_suffix (fs : List String) (d b e : String) (c : Nat) :
    ∃ j, j < fs.length + 1 ∧ suffixedName d b (c + j) e ∉ fs := by
  by_contra hall
  push_neg at hall
  have hmaps : ∀ j : Fin (fs.length + 1),
      suffixedName d b (c + j.val) e ∈ fs.toFinset := by
    intro j
    rw [List.mem_toFinset]
    exact hall j.val j.isLt
  have hinj : Set.InjOn (fun j : Fin (fs.length + 1) => suffixedName d b (c + j.val) e)
      ↑(Finset.univ : Finset (Fin (fs.length + 1))) := by
    intro j1 _ j2 _ hj
    have := suffixedName_injective d b e hj
    exact Fin.ext (by omega)
  have hcard := Finset.card_le_card_of_injOn _ (fun j _ => hmaps j) hinj
  simp only [Finset.card_univ, Fintype.card_fin] at hcard
  have hlen := fs.toFinset_card_le
  omega

theorem euf_loop_spec (fs : List String) (d b e : String) :
    ∀ (fuel counter : Nat),
      (∃ j, j < fuel ∧ suffixedName d b (counter + j) e ∉ fs) →
      euf_loop fs d b e counter fuel ∉ fs ∧
      ∃ k, counter ≤ k ∧ euf_loop fs d b e counter fuel = suffixedName d b k e := by
  intro fuel
  induction fuel with
  | zero => intro counter h; obtain ⟨j, hj, _⟩ := h; omega
  | succ fuel ih =>
    intro counter h
    simp only [euf_loop]
    by_cases hmem : suffixedName d b counter e ∈ fs
    · simp only [hmem, if_true]
      obtain ⟨j, hj, hfree⟩ := h
      have hj0 : j ≠ 0 := by
        intro hj0
        rw [hj0, Nat.add_zero] at hfree
        exact hfree hmem
      obtain ⟨j', rfl⟩ := Nat.exists_eq_succ_of_ne_zero hj0
      have hnext : ∃ j, j < fuel ∧ suffixedName d b (counter + 1 + j) e ∉ fs := by
        refine ⟨j', by omega, ?_⟩
        have : counter + 1 + j' = counter + (j' + 1) := by omega
        rw [this]
        exact hfree
      obtain ⟨hnotin, k, hk, heq⟩ := ih (counter + 1) hnext
      exact ⟨hnotin, k, by omega, heq⟩
    · rw [if_neg hmem]
      exact ⟨hmem, counter, Nat.le_refl counter, rfl⟩

/-- Central fact about `ensure_unique_filename`: the returned path never
names an existing file, so nothing is ever overwritten. -/
theorem ensure_unique_filename_not_mem (fs : List String) (d f e : String) :
    ensure_unique_filename fs d f e ∉ fs := by
  unfold ensure_unique_filename
  by_cases hmem : plainName d f e ∈ fs
  · simp only [hmem, if_true]
    obtain ⟨j, hj, hfree⟩ := exists_free_suffix fs d f e 1
    exact (euf_loop_spec fs d f e (fs.length + 1) 1 ⟨j, hj, hfree⟩).1
  · rw [if_neg hmem]
    exact hmem

/-- When the plain candidate collides, the result is a counter-suffixed name
with counter at least 1. -/
theorem ensure_unique_filename_suffixed (fs : List String) (d f e : String)
    (hmem : plainName d f e ∈ fs) :
    ∃ k, 1 ≤ k ∧ ensure_unique_filename fs d f e = suffixedName d f k e := by
  unfold ensure_unique_filename
  simp only [hmem, if_true]
  obtain ⟨j, hj, hfree⟩ := exists_free_suffix fs d f e 1
  exact (euf_loop_spec fs d f e (fs.length + 1) 1 ⟨j, hj, hfree⟩).2

theorem ensure_unique_filename_plain (fs : List String) (d f e : String)
    (hmem : plainName d f e ∉ fs) :
    ensure_unique_filename fs d f e = plainName d f e := by
  simp [ensure_unique_filename, hmem]

/-! ## Retryable segment fetcher

Source: `download_segment(url, directory, idx, total, retries=MAX_RETRIES)`
at src/arMa.py lines 115-148.  The filesystem is a partial map from path to
byte list; the network environment supplies one `HttpResponse` per attempt
the loop would make: the HTTP status (`raise_for_status` raises on status
≥ 400), the optional Content-Length header, the chunks delivered by
`iter_content`, and whether the connection then failed mid-transfer before
the body was complete. -/

/-- Global retry ceiling, src/arMa.py line 37. -/
def MAX_RETRIES : Nat := 5

/-- Global backoff base in seconds, src/arMa.py line 38. -/
def RETRY_BACKOFF : Nat := 2

/-- Filesystem state: maps each path to the bytes of the file there, if any. -/
def FS : Type := String → Option (List Nat)

/-- Primitive filesystem operations performed by `download_segment`:
opening a file in append mode (creates it empty if absent), appending a
chunk to an open file, and `os.rename`. -/
inductive FsEvent where
  | openAppend (p : String)
  | write (p : String) (bytes : List Nat)
  | rename (src dst : String)
deriving DecidableEq

/-- Effect of one filesystem operation.  `openAppend` in mode `'ab'` keeps
existing content and creates an empty file when the path is absent; `write`
appends; `rename` moves the content of `src` to `dst` in one step. -/
def applyEvent (fs : FS) : FsEvent → FS
  | .openAppend p => fun q => if q = p then some ((fs p).getD []) else fs q
  | .write p bs => fun q => if q = p then some ((fs p).getD [] ++ bs) else fs q
  | .rename src dst => fun q => if q = dst then fs src else if q = src then none else fs q

def applyEvents (fs : FS) (evs : List FsEvent) : FS := evs.foldl applyEvent fs

/-- Filesystem states reached after each successive operation (the state
before the first operation is not included). -/
def statesFrom (fs : FS) : List FsEvent → List FS
  | [] => []
  | ev :: evs => applyEvent fs ev :: statesFrom (applyEvent fs ev) evs

/-- Final local path of segment `idx`: `os.path.join(directory, f"segment_{idx}.ts")`
(src/arMa.py line 119). -/
def local_filename (directory : String) (idx : Nat) : String :=
  directory ++ "/segment_" ++ Nat.repr idx ++ ".ts"

/-- Temporary download path `local_filename + ".part"` (src/arMa.py line 120). -/
def temp_filename (directory : String) (idx : Nat) : String :=
  local_filename directory idx ++ ".part"

/-- One response of the network environment to one `requests.get` attempt. -/
structure HttpResponse where
  status : Nat
  contentLength : Option Nat
  chunks : List (List Nat)
  midError : Bool
deriving DecidableEq

/-- Write events for the chunk loop
`for chunk in r.iter_content(chunk_size=1024): if chunk: f.write(chunk)`:
empty chunks are skipped. -/
def writeChunksEvents (p : String) : List (List Nat) → List FsEvent
  | [] => []
  | c :: cs =>
    if c.isEmpty then writeChunksEvents p cs
    else FsEvent.write p c :: writeChunksEvents p cs

/-- Everything observable about one run of `download_segment`: the final
filesystem, the filesystem operations in order, the `time.sleep` durations,
the `Range` header of each request issued, the `total_size` computed for
each attempt that got past `raise_for_status`, and the returned path or the
final `RuntimeError`. -/
structure SegRun where
  fs : FS
  events : List FsEvent
  sleeps : List Nat
  requests : List (Option String)
  totals : List (Option Nat)
  result : Except String String

/-- The `for attempt in range(1, retries+1)` loop of `download_segment`
(src/arMa.py lines 127-147), one list element per attempt.  An attempt with
status ≥ 400 raises in `raise_for_status`: nothing is written and the
handler sleeps `RETRY_BACKOFF ** attempt`.  Otherwise the temp file is
opened in `'ab'` mode and the delivered chunks are appended; if the
connection then dies mid-transfer the same sleep-and-retry handler runs,
and if the body completes the temp file is renamed onto the final name and
the final path is returned.  When all attempts are exhausted the
`RuntimeError` of line 148 is raised.  The `headers` range value and
`downloaded` count are computed once, before the loop, and never refreshed
(exactly as in the source). -/
def segLoop (directory : String) (idx retries : Nat) (headers : Option String)
    (downloaded : Nat) : List HttpResponse → Nat → FS → SegRun
  | [], _, fs =>
    ⟨fs, [], [], [], [],
      .error ("Failed to download segment " ++ Nat.repr idx ++ " after " ++
        Nat.repr retries ++ " retries.")⟩
  | r :: rest, attempt, fs =>
    if r.status < 400 then
      let total_size := r.contentLength.map (fun l => l + downloaded)
      let blockEvs := FsEvent.openAppend (temp_filename directory idx) ::
        writeChunksEvents (temp_filename directory idx) r.chunks
      let fs1 := applyEvents fs blockEvs
      if r.midError then
        let rec1 := segLoop directory idx retries headers downloaded rest (attempt + 1) fs1
        ⟨rec1.fs, blockEvs ++ rec1.events, RETRY_BACKOFF ^ attempt :: rec1.sleeps,
          headers :: rec1.requests, total_size :: rec1.totals, rec1.result⟩
      else
        ⟨applyEvent fs1 (.rename (temp_filename directory idx) (local_filename directory idx)),
          blockEvs ++ [FsEvent.rename (temp_filename directory idx) (local_filename directory idx)],
          [], [headers], [total_size], .ok (local_filename directory idx)⟩
    else
      let rec1 := segLoop directory idx retries headers downloaded rest (attempt + 1) fs
      ⟨rec1.fs, rec1.events, RETRY_BACKOFF ^ attempt :: rec1.sleeps,
        headers :: rec1.requests, rec1.totals, rec1.result⟩

/-- `download_segment` (src/arMa.py lines 115-148).  `downloaded` is the
size of the already-present temp file (0 if absent), the `Range` header is
sent iff `downloaded > 0`, and the attempt loop runs at most `retries`
times against the environment's responses. -/
def download_segment (fs0 : FS) (directory : String) (idx : Nat) (total : Nat)
    (resps : List HttpResponse) (retries : Nat := MAX_RETRIES) : SegRun :=
  let downloaded := ((fs0 (temp_filename directory idx)).map List.length).getD 0
  let headers := if downloaded > 0 then some ("bytes=" ++ Nat.repr downloaded ++ "-") else none
  segLoop directory idx retries headers downloaded (resps.take retries) 1 fs0

theorem temp_ne_local (directory : String) (idx : Nat) :
    temp_filename directory idx ≠ local_filename directory idx := by
  intro h
  have hd := congrArg String.data h
  rw [temp_filename, String.data_append] at hd
  have hlen := congrArg List.length hd
  rw [List.length_append] at hlen
  have h5 : (".part".data).length = 5 := rfl
  omega

theorem applyEvents_nil (fs : FS) : applyEvents fs [] = fs := rfl

theorem applyEvents_cons (fs : FS) (e : FsEvent) (evs : List FsEvent) :
    applyEvents fs (e :: evs) = applyEvents (applyEvent fs e) evs := rfl

theorem applyEvents_append (fs : FS) (l1 l2 : List FsEvent) :
    applyEvents fs (l1 ++ l2) = applyEvents (applyEvents fs l1) l2 :=
  List.foldl_append applyEvent fs l1 l2

theorem applyEvent_openAppend_self (fs : FS) (p : String) :
    applyEvent fs (.openAppend p) p = some ((fs p).getD []) := by
  simp [applyEvent]

theorem applyEvents_writeChunks (p : String) :
    ∀ (cs : List (List Nat)) (fs : FS) (l : List Nat), fs p = some l →
      applyEvents fs (writeChunksEvents p cs) p = some (l ++ cs.flatten) := by
  intro cs
  induction cs with
  | nil =>
    intro fs l h
    rw [writeChunksEvents, applyEvents_nil, h, List.flatten]
    simp
  | cons c cs ih =>
    intro fs l h
    rw [writeChunksEvents]
    by_cases hc : c.isEmpty
    · rw [if_pos hc]
      have hc' : c = [] := by simpa using hc
      rw [ih fs l h, hc']
      simp [List.flatten]
    · rw [if_neg hc, applyEvents_cons]
      have hstep : applyEvent fs (FsEvent.write p c) p = some (l ++ c) := by
        simp [applyEvent, h]
      rw [ih _ (l ++ c) hstep]
      simp [List.flatten]
  
theorem applyEvents_writeChunks_ne (p q : String) (hq : q ≠ p) :
    ∀ (cs : List (List Nat)) (fs : FS),
      applyEvents fs (writeChunksEvents p cs) q = fs q := by
  intro cs
  induction cs with
  | nil => intro fs; rw [writeChunksEvents, applyEvents_nil]
  | cons c cs ih =>
    intro fs
    rw [writeChunksEvents]
    by_cases hc : c.isEmpty
    · rw [if_pos hc, ih]
    · rw [if_neg hc, applyEvents_cons, ih]
      simp [applyEvent, hq]

theorem applyEvents_block (fs : FS) (p : String) (cs : List (List Nat)) :
    applyEvents fs (FsEvent.openAppend p :: writeChunksEvents p cs) p
      = some ((fs p).getD [] ++ cs.flatten) := by
  rw [applyEvents_cons]
  exact applyEvents_writeChunks p cs _ _ (applyEvent_openAppend_self fs p)

theorem applyEvents_block_ne (fs : FS) (p q : String) (hq : q ≠ p) (cs : List (List Nat)) :
    applyEvents fs (FsEvent.openAppend p :: writeChunksEvents p cs) q = fs q := by
  rw [applyEvents_cons, applyEvents_writeChunks_ne p q hq]
  simp [applyEvent, hq]

theorem statesFrom_append (fs : FS) (l1 l2 : List FsEvent) :
    statesFrom fs (l1 ++ l2) = statesFrom fs l1 ++ statesFrom (applyEvents fs l1) l2 := by
  induction l1 generalizing fs with
  | nil => rw [statesFrom, applyEvents_nil, List.nil_append, List.nil_append]
  | cons e l1 ih =>
    rw [List.cons_append, statesFrom, statesFrom, ih, applyEvents_cons, List.cons_append]

theorem statesFrom_writeChunks (p : String) :
    ∀ (cs : List (List Nat)) (fs : FS), fs p ≠ none →
      ∀ σ ∈ statesFrom fs (writeChunksEvents p cs), σ p ≠ none := by
  intro cs
  induction cs with
  | nil => intro fs h σ hσ; rw [writeChunksEvents, statesFrom] at hσ; simp at hσ
  | cons c cs ih =>
    intro fs h σ hσ
    rw [writeChunksEvents] at hσ
    by_cases hc : c.isEmpty
    · rw [if_pos hc] at hσ
      exact ih fs h σ hσ
    · rw [if_neg hc, statesFrom] at hσ
      rcases List.mem_cons.mp hσ with hσ | hσ
      · subst hσ
        simp [applyEvent]
      · exact ih _ (by simp [applyEvent]) σ hσ

theorem statesFrom_block (fs : FS) (p : String) (cs : List (List Nat)) :
    ∀ σ ∈ statesFrom fs (FsEvent.openAppend p :: writeChunksEvents p cs), σ p ≠ none := by
  intro σ hσ
  rw [statesFrom] at hσ
  rcases List.mem_cons.mp hσ with hσ | hσ
  · subst hσ
    simp [applyEvent]
  · exact statesFrom_writeChunks p cs _ (by simp [applyEvent]) σ hσ

theorem writeChunksEvents_mem (p : String) :
    ∀ (cs : List (List Nat)) (ev : FsEvent), ev ∈ writeChunksEvents p cs →
      ∃ bs, ev = FsEvent.write p bs := by
  intro cs
  induction cs with
  | nil => intro ev h; rw [writeChunksEvents] at h; simp at h
  | cons c cs ih =>
    intro ev h
    rw [writeChunksEvents] at h
    by_cases hc : c.isEmpty
    · rw [if_pos hc] at h
      exact ih ev h
    · rw [if_neg hc] at h
      rcases List.mem_cons.mp h with h | h
      · exact ⟨c, h⟩
      · exact ih ev h

theorem segLoop_events_shape (directory : String) (idx retries : Nat) (headers : Option String)
    (downloaded : Nat) :
    ∀ (resps : List HttpResponse) (attempt : Nat) (fs : FS) (ev : FsEvent),
      ev ∈ (segLoop directory idx retries headers downloaded resps attempt fs).events →
      ev = FsEvent.openAppend (temp_filename directory idx) ∨
      (∃ bs, ev = FsEvent.write (temp_filename directory idx) bs) ∨
      ev = FsEvent.rename (temp_filename directory idx) (local_filename directory idx) := by
  intro resps
  induction resps with
  | nil => intro attempt fs ev h; simp [segLoop] at h
  | cons r rest ih =>
    intro attempt fs ev h
    simp only [segLoop] at h
    by_cases hst : r.status < 400
    · rw [if_pos hst] at h
      by_cases hm : r.midError = true
      · rw [if_pos hm] at h
        simp only at h
        rcases List.mem_append.mp h with h | h
        · rcases List.mem_cons.mp h with h | h
          · exact Or.inl h
          · exact Or.inr (Or.inl (writeChunksEvents_mem _ _ ev h))
        · exact ih (attempt + 1) _ ev h
      · rw [if_neg hm] at h
        simp only at h
        rcases List.mem_append.mp h with h | h
        · rcases List.mem_cons.mp h with h | h
          · exact Or.inl h
          · exact Or.inr (Or.inl (writeChunksEvents_mem _ _ ev h))
        · rcases List.mem_cons.mp h with h | h
          · exact Or.inr (Or.inr h)
          · simp at h
    · rw [if_neg hst] at h
      simp only at h
      exact ih (attempt + 1) fs ev h

theorem segLoop_states (directory : String) (idx retries : Nat) (headers : Option String)
    (downloaded : Nat) :
    ∀ (resps : List HttpResponse) (attempt : Nat) (fs : FS) (σ : FS),
      σ ∈ statesFrom fs (segLoop directory idx retries headers downloaded resps attempt fs).events →
      σ (temp_filename directory idx) ≠ none ∨ σ (local_filename directory idx) ≠ none := by
  intro resps
  induction resps with
  | nil => intro attempt fs σ h; simp [segLoop, statesFrom] at h
  | cons r rest ih =>
    intro attempt fs σ h
    simp only [segLoop] at h
    by_cases hst : r.status < 400
    · rw [if_pos hst] at h
      by_cases hm : r.midError = true
      · rw [if_pos hm] at h
        simp only at h
        rw [statesFrom_append] at h
        rcases List.mem_append.mp h with h | h
        · exact Or.inl (statesFrom_block fs _ r.chunks σ h)
        · exact ih (attempt + 1) _ σ h
      · rw [if_neg hm] at h
        simp only at h
        rw [statesFrom_append] at h
        rcases List.mem_append.mp h with h | h
        · exact Or.inl (statesFrom_block fs _ r.chunks σ h)
        · rw [statesFrom] at h
          rcases List.mem_cons.mp h with h | h
          · subst h
            refine Or.inr ?_
            have hblk := applyEvents_block fs (temp_filename directory idx) r.chunks
            simp [applyEvent, hblk]
          · simp [statesFrom] at h
    · rw [if_neg hst] at h
      simp only at h
      exact ih (attempt + 1) fs σ h

theorem segLoop_result_ok (directory : String) (idx retries : Nat) (headers : Option String)
    (downloaded : Nat) :
    ∀ (resps : List HttpResponse) (attempt : Nat) (fs : FS) (path : String),
      (segLoop directory idx retries headers downloaded resps attempt fs).result = .ok path →
      path = local_filename directory idx ∧
      (segLoop directory idx retries headers downloaded resps attempt fs).events.getLast? =
        some (FsEvent.rename (temp_filename directory idx) (local_filename directory idx)) := by
  intro resps
  induction resps with
  | nil => intro attempt fs path h; simp [segLoop] at h
  | cons r rest ih =>
    intro attempt fs path h
    simp only [segLoop] at h ⊢
    by_cases hst : r.status < 400
    · rw [if_pos hst] at h ⊢
      by_cases hm : r.midError = true
      · rw [if_pos hm] at h ⊢
        simp only at h ⊢
        obtain ⟨hpath, hlast⟩ := ih (attempt + 1) _ path h
        refine ⟨hpath, ?_⟩
        have hne : (segLoop directory idx retries headers downloaded rest (attempt + 1)
            (applyEvents fs (FsEvent.openAppend (temp_filename directory idx) ::
              writeChunksEvents (temp_filename directory idx) r.chunks))).events ≠ [] := by
          intro hnil
          rw [hnil] at hlast
          simp at hlast
        rw [List.getLast?_append_of_ne_nil _ hne]
        exact hlast
      · rw [if_neg hm] at h ⊢
        simp only at h ⊢
        refine ⟨by simpa using h.symm, ?_⟩
        rw [List.getLast?_append_of_ne_nil _ (by simp)]
        simp
    · rw [if_neg hst] at h ⊢
      simp only at h ⊢
      exact ih (attempt + 1) fs path h

theorem segLoop_fs_grows (directory : String) (idx retries : Nat) (headers : Option String)
    (downloaded : Nat) :
    ∀ (resps : List HttpResponse) (attempt : Nat) (fs : FS) (l : List Nat),
      fs (temp_filename directory idx) = some l →
      ∃ q, (segLoop directory idx retries headers downloaded resps attempt fs).fs
            (temp_filename directory idx) = some (l ++ q) ∨
          (segLoop directory idx retries headers downloaded resps attempt fs).fs
            (local_filename directory idx) = some (l ++ q) := by
  intro resps
  induction resps with
  | nil =>
    intro attempt fs l h
    refine ⟨[], Or.inl ?_⟩
    simp [segLoop, h]
  | cons r rest ih =>
    intro attempt fs l h
    simp only [segLoop]
    by_cases hst : r.status < 400
    · rw [if_pos hst]
      have hblk := applyEvents_block fs (temp_filename directory idx) r.chunks
      rw [h] at hblk
      simp only [Option.getD_some] at hblk
      by_cases hm : r.midError = true
      · rw [if_pos hm]
        simp only
        obtain ⟨q, hq⟩ := ih (attempt + 1) _ (l ++ r.chunks.flatten) hblk
        refine ⟨r.chunks.flatten ++ q, ?_⟩
        rwa [← List.append_assoc]
      · rw [if_neg hm]
        simp only
        refine ⟨r.chunks.flatten, Or.inr ?_⟩
        simp only [applyEvent, if_pos rfl]
        exact hblk
    · rw [if_neg hst]
      simp only
      exact ih (attempt + 1) fs l h

theorem segLoop_all_fail (directory : String) (idx retries : Nat) (headers : Option String)
    (downloaded : Nat) :
    ∀ (resps : List HttpResponse) (attempt : Nat) (fs : FS),
      (∀ r ∈ resps, 400 ≤ r.status ∨ r.midError = true) →
      (segLoop directory idx retries headers downloaded resps attempt fs).result =
        .error ("Failed to download segment " ++ Nat.repr idx ++ " after " ++
          Nat.repr retries ++ " retries.") ∧
      (segLoop directory idx retries headers downloaded resps attempt fs).sleeps =
        (List.range' attempt resps.length).map (fun a => RETRY_BACKOFF ^ a) := by
  intro resps
  induction resps with
  | nil => intro attempt fs _; simp [segLoop]
  | cons r rest ih =>
    intro attempt fs hfail
    have hrest : ∀ x ∈ rest, 400 ≤ x.status ∨ x.midError = true := by
      intro x hx
      exact hfail x (List.mem_cons_of_mem r hx)
    simp only [segLoop]
    by_cases hst : r.status < 400
    · rw [if_pos hst]
      have hm : r.midError = true := by
        rcases hfail r (List.mem_cons_self r rest) with h | h
        · omega
        · exact h
      rw [if_pos hm]
      simp only
      obtain ⟨hres, hsl⟩ := ih (attempt + 1) _ hrest
      refine ⟨hres, ?_⟩
      rw [hsl, List.length_cons, List.range'_succ, List.map_cons]
    · rw [if_neg hst]
      simp only
      obtain ⟨hres, hsl⟩ := ih (attempt + 1) fs hrest
      refine ⟨hres, ?_⟩
      rw [hsl, List.length_cons, List.range'_succ, List.map_cons]

theorem segLoop_requests (directory : String) (idx retries : Nat) (headers : Option String)
    (downloaded : Nat) :
    ∀ (resps : List HttpResponse) (attempt : Nat) (fs : FS),
      ∀ hd ∈ (segLoop directory idx retries headers downloaded resps attempt fs).requests,
        hd = headers := by
  intro resps
  induction resps with
  | nil => intro attempt fs hd h; simp [segLoop] at h
  | cons r rest ih =>
    intro attempt fs hd h
    simp only [segLoop] at h
    by_cases hst : r.status < 400
    · rw [if_pos hst] at h
      by_cases hm : r.midError = true
      · rw [if_pos hm] at h
        simp only at h
        rcases List.mem_cons.mp h with h | h
        · exact h
        · exact ih (attempt + 1) _ hd h
      · rw [if_neg hm] at h
        simp only at h
        rcases List.mem_cons.mp h with h | h
        · exact h
        · simp at h
    · rw [if_neg hst] at h
      simp only at h
      rcases List.mem_cons.mp h with h | h
      · exact h
      · exact ih (attempt + 1) fs hd h

theorem segLoop_totals (directory : String) (idx retries : Nat) (headers : Option String)
    (downloaded : Nat) :
    ∀ (resps : List HttpResponse) (attempt : Nat) (fs : FS),
      ∀ t ∈ (segLoop directory idx retries headers downloaded resps attempt fs).totals,
        ∃ r ∈ resps, r.status < 400 ∧ t = r.contentLength.map (fun l => l + downloaded) := by
  intro resps
  induction resps with
  | nil => intro attempt fs t h; simp [segLoop] at h
  | cons r rest ih =>
    intro attempt fs t h
    simp only [segLoop] at h
    by_cases hst : r.status < 400
    · rw [if_pos hst] at h
      by_cases hm : r.midError = true
      · rw [if_pos hm] at h
        simp only at h
        rcases List.mem_cons.mp h with h | h
        · exact ⟨r, List.mem_cons_self r rest, hst, h⟩
        · obtain ⟨x, hx, hxs, hxt⟩ := ih (attempt + 1) _ t h
          exact ⟨x, List.mem_cons_of_mem r hx, hxs, hxt⟩
      · rw [if_neg hm] at h
        simp only at h
        rcases List.mem_cons.mp h with h | h
        · exact ⟨r, List.mem_cons_self r rest, hst, h⟩
        · simp at h
    · rw [if_neg hst] at h
      simp only at h
      obtain ⟨x, hx, hxs, hxt⟩ := ih (attempt + 1) fs t h
      exact ⟨x, List.mem_cons_of_mem r hx, hxs, hxt⟩

/-! ## Parallel orchestrator and assembler

Source: `download_and_merge_segments(playlist, directory, filename, parallel=4)`
at src/arMa.py lines 150-190.  All futures are submitted up front (lines
159-162); results are consumed in `as_completed` order.  The environment is
modelled by the full completion list: one entry per submitted future, in
the order `as_completed` yields them, each marked with whether
`future.result()` returned a path or raised.  Every submitted future runs
to completion: the code never calls `Future.cancel` and `sys.exit(1)`
(line 170) merely raises `SystemExit`, which makes the `with` block run
`ThreadPoolExecutor.shutdown(wait=True)` — which waits for all pending
work items and cancels none of them.  `os.path.abspath` is modelled as the
identity (the model's paths are taken to be absolute), and the external
`ffmpeg` subprocess by its exit code, supplied as a parameter; the source
calls `subprocess.run` without `check=True` and never reads
`returncode`, so the exit code cannot influence anything after line 184. -/

/-- One completed future in `as_completed` order. -/
structure CompletionEntry where
  idx : Nat
  success : Bool
deriving DecidableEq

/-- Boolean lexicographic comparison of code-point lists: the order Python
uses to compare `str` values. -/
def charListLt : List Char → List Char → Bool
  | [], [] => false
  | [], _ :: _ => true
  | _ :: _, [] => false
  | c :: cs, d :: ds =>
    if c.toNat < d.toNat then true
    else if d.toNat < c.toNat then false
    else charListLt cs ds

/-- Python's `<` on strings (lexicographic on code points). -/
def pyStrLt (a b : String) : Bool := charListLt a.data b.data

/-- Stable insertion sort by `pyStrLt`, modelling Python's builtin `sorted`
on a list of `str` (ascending). -/
def insertStr (x : String) : List String → List String
  | [] => [x]
  | y :: ys => if pyStrLt y x then y :: insertStr x ys else x :: y :: ys

def pySorted : List String → List String
  | [] => []
  | x :: xs => insertStr x (pySorted xs)

/-- The `for future in as_completed(futures)` loop (lines 163-170): append
each successful path to `segment_files` in completion order; on the first
raising future, print the failing index and `sys.exit(1)`. -/
def collectSegments (directory : String) : List CompletionEntry → Except Nat (List String)
  | [] => .ok []
  | e :: rest =>
    if e.success then (collectSegments directory rest).map (local_filename directory e.idx :: ·)
    else .error e.idx

/-- Observable outcome of one run of `download_and_merge_segments`. -/
structure MergeRun where
  exitCode : Option Nat
  failedIdx : Option Nat
  segment_files : List String
  concatLines : List String
  mp4_file : Option String
  files : List String
  executed : List Nat
deriving DecidableEq

/-- `download_and_merge_segments` (src/arMa.py lines 150-190).  `fs0` is
the list of paths existing before the merge stage (the playlist's segments
have already been written by the workers), `completion` the environment's
completion schedule, `ffmpegExit` the muxer's exit code.  On full success
the concat manifest is written with the *string-sorted* segment paths
(line 175: `sorted(segment_files)`), ffmpeg is invoked, and then every
segment file and the concat file are removed (lines 188-190) without the
exit code ever being consulted.  `files` is the resulting set of existing
paths and `executed` the indices of the segment jobs that actually ran. -/
def download_and_merge_segments (directory filename : String)
    (completion : List CompletionEntry) (ffmpegExit : Nat) (fs0 : List String)
    (parallel : Nat := 4) : MergeRun :=
  let executed := completion.map (·.idx)
  match collectSegments directory completion with
  | .error idx =>
    { exitCode := some 1, failedIdx := some idx, segment_files := [], concatLines := [],
      mp4_file := none,
      files := fs0 ++ (completion.filter (·.success)).map (fun c => local_filename directory c.idx),
      executed := executed }
  | .ok segment_files =>
    let concat_file := directory ++ "/" ++ filename ++ "_concat.txt"
    let concatLines := (pySorted segment_files).map (fun p => "file '" ++ p ++ "'\n")
    let fs1 := fs0 ++ segment_files ++ [concat_file]
    let mp4_file := ensure_unique_filename fs1 directory filename ".mp4"
    let files := (fs1 ++ [mp4_file]).filter
      (fun p => decide (p ∉ segment_files ∧ p ≠ concat_file))
    { exitCode := none, failedIdx := none, segment_files := segment_files,
      concatLines := concatLines, mp4_file := some mp4_file, files := files,
      executed := executed }

theorem collectSegments_all_success (directory : String) :
    ∀ (completion : List CompletionEntry), (∀ c ∈ completion, c.success = true) →
      collectSegments directory completion =
        .ok (completion.map fun c => local_filename directory c.idx) := by
  intro completion
  induction completion with
  | nil => intro _; rfl
  | cons c rest ih =>
    intro hall
    have hc : c.success = true := hall c (List.mem_cons_self c rest)
    have hrest : ∀ x ∈ rest, x.success = true :=
      fun x hx => hall x (List.mem_cons_of_mem c hx)
    rw [collectSegments, if_pos hc, ih hrest]
    rfl

theorem collectSegments_first_failure (directory : String) :
    ∀ (pre : List CompletionEntry) (c : CompletionEntry) (post : List CompletionEntry),
      (∀ x ∈ pre, x.success = true) → c.success = false →
      collectSegments directory (pre ++ c :: post) = .error c.idx := by
  intro pre
  induction pre with
  | nil =>
    intro c post _ hc
    rw [List.nil_append, collectSegments, if_neg (by simp [hc])]
  | cons p pre ih =>
    intro c post hall hc
    have hp : p.success = true := hall p (List.mem_cons_self p pre)
    have hpre : ∀ x ∈ pre, x.success = true :=
      fun x hx => hall x (List.mem_cons_of_mem p hx)
    rw [List.cons_append, collectSegments, if_pos hp, ih c post hpre hc]
    rfl

/-! ## Direct file download and worker-count handling

Source: `download_file(url, directory, filename, resume=True)` at
src/arMa.py lines 68-113, and the `--parallel` CLI argument in `main`
(lines 374, 388). -/

/-- Observable setup of one `download_file` call: the destination chosen,
the open mode, the byte count treated as already downloaded, the `Range`
header (if any) and the progress bar's expected total. -/
structure DownloadFilePlan where
  full_path : String
  mode : String
  downloaded : Nat
  range : Option String
  total_size : Option Nat
deriving DecidableEq

/-- `download_file` (src/arMa.py lines 86-94): destination from
`ensure_unique_filename`; mode `'ab'` iff `resume` and the destination
exists, else `'wb'`; `downloaded` is the destination's size in `'ab'` mode
and 0 otherwise; the `Range` header is added only in `'ab'` mode; the
expected total adds `downloaded` to the HEAD Content-Length when that
header is present.  `fs` lists the existing paths and `size` gives
`os.path.getsize`. -/
def download_file (fs : List String) (size : String → Nat) (directory filename ext : String)
    (resume : Bool) (headContentLength : Option Nat) : DownloadFilePlan :=
  let full_path := ensure_unique_filename fs directory filename ext
  let mode := if resume ∧ full_path ∈ fs then "ab" else "wb"
  let downloaded := if mode = "ab" then size full_path else 0
  let range := if mode = "ab" then some ("bytes=" ++ Nat.repr downloaded ++ "-") else none
  let total_size := headContentLength.map (fun l => l + downloaded)
  { full_path := full_path, mode := mode, downloaded := downloaded, range := range,
    total_size := total_size }

/-- Worker count seen by `download_and_merge_segments`: `argparse` gives
`--parallel` type `int` with `default=4` (src/arMa.py line 374) and `main`
passes `args.parallel` through unchanged (line 388); no bound is checked
anywhere in the program. -/
def main_parallel_value (cliParallel : Option Int) : Int := cliParallel.getD 4

/-- Modelled from the Python standard library (an external collaborator,
not part of src/arMa.py): `concurrent.futures.ThreadPoolExecutor.__init__`
raises `ValueError("max_workers must be greater than 0")` when
`max_workers <= 0`, and otherwise constructs the pool. -/
def threadPoolExecutorInit (max_workers : Int) : Except String Int :=
  if max_workers ≤ 0 then .error "max_workers must be greater than 0" else .ok max_workers

/-! ## Characterization of the orchestrator's two outcomes -/

theorem download_and_merge_ok (directory filename : String) (completion : List CompletionEntry)
    (ffmpegExit : Nat) (fs0 : List String) (segs : List String)
    (h : collectSegments directory completion = .ok segs) :
    download_and_merge_segments directory filename completion ffmpegExit fs0 =
      { exitCode := none, failedIdx := none, segment_files := segs,
        concatLines := (pySorted segs).map (fun p => "file '" ++ p ++ "'\n"),
        mp4_file := some (ensure_unique_filename
          (fs0 ++ segs ++ [directory ++ "/" ++ filename ++ "_concat.txt"])
          directory filename ".mp4"),
        files := ((fs0 ++ segs ++ [directory ++ "/" ++ filename ++ "_concat.txt"]) ++
            [ensure_unique_filename
              (fs0 ++ segs ++ [directory ++ "/" ++ filename ++ "_concat.txt"])
              directory filename ".mp4"]).filter
          (fun p => decide (p ∉ segs ∧ p ≠ directory ++ "/" ++ filename ++ "_concat.txt")),
        executed := completion.map (·.idx) } := by
  unfold download_and_merge_segments
  rw [h]

theorem download_and_merge_error (directory filename : String)
    (completion : List CompletionEntry) (ffmpegExit : Nat) (fs0 : List String) (idx : Nat)
    (h : collectSegments directory completion = .error idx) :
    download_and_merge_segments directory filename completion ffmpegExit fs0 =
      { exitCode := some 1, failedIdx := some idx, segment_files := [], concatLines := [],
        mp4_file := none,
        files := fs0 ++
          (completion.filter (·.success)).map (fun c => local_filename directory c.idx),
        executed := completion.map (·.idx) } := by
  unfold download_and_merge_segments
  rw [h]

/-- Equation form of `download_segment` for switching to `segLoop`. -/
theorem download_segment_eq (fs0 : FS) (directory : String) (idx total retries : Nat)
    (resps : List HttpResponse) :
    download_segment fs0 directory idx total resps retries =
      segLoop directory idx retries
        (if ((fs0 (temp_filename directory idx)).map List.length).getD 0 > 0
          then some ("bytes=" ++
            Nat.repr (((fs0 (temp_filename directory idx)).map List.length).getD 0) ++ "-")
          else none)
        (((fs0 (temp_filename directory idx)).map List.length).getD 0)
        (resps.take retries) 1 fs0 := rfl

/-! ## The claims -/

/-- C6: for every directory state, `ensure_unique_filename` returns the
requested path when no file exists there; when the requested path exists it
returns a `base_k`-suffixed path with `k ≥ 1`; and in all cases the
returned path names no existing file, so nothing is overwritten. -/
theorem c6_unique_filename (fs : List String) (d f e : String) :
    ensure_unique_filename fs d f e ∉ fs ∧
    (plainName d f e ∉ fs → ensure_unique_filename fs d f e = plainName d f e) ∧
    (plainName d f e ∈ fs →
      ∃ k, 1 ≤ k ∧ ensure_unique_filename fs d f e = suffixedName d f k e) :=
  ⟨ensure_unique_filename_not_mem fs d f e,
   ensure_unique_filename_plain fs d f e,
   ensure_unique_filename_suffixed fs d f e⟩

/-- Witness for C6: with `dl/movie.mp4` already present, the result is a
suffixed name and collides with nothing. -/
theorem c6_unique_filename_witness :
    ensure_unique_filename ["dl/movie.mp4"] "dl" "movie" ".mp4" ∉ ["dl/movie.mp4"] ∧
    ∃ k, 1 ≤ k ∧ ensure_unique_filename ["dl/movie.mp4"] "dl" "movie" ".mp4"
      = suffixedName "dl" "movie" k ".mp4" :=
  ⟨(c6_unique_filename ["dl/movie.mp4"] "dl" "movie" ".mp4").1,
   (c6_unique_filename ["dl/movie.mp4"] "dl" "movie" ".mp4").2.2 (by decide)⟩

/-- C10: in `download_file` the destination returned by
`ensure_unique_filename` never exists, so the `'ab'` resume branch is
unreachable — the file is opened in `'wb'` mode with 0 bytes counted as
downloaded and no `Range` header, for every directory state and every
value of `resume`. -/
theorem c10_direct_download_never_resumes (fs : List String) (size : String → Nat)
    (directory filename ext : String) (resume : Bool) (headContentLength : Option Nat) :
    (download_file fs size directory filename ext resume headContentLength).full_path ∉ fs ∧
    (download_file fs size directory filename ext resume headContentLength).mode = "wb" ∧
    (download_file fs size directory filename ext resume headContentLength).downloaded = 0 ∧
    (download_file fs size directory filename ext resume headContentLength).range = none := by
  have hnot := ensure_unique_filename_not_mem fs directory filename ext
  have hcond : ¬(resume ∧ ensure_unique_filename fs directory filename ext ∈ fs) :=
    fun h => hnot h.2
  refine ⟨hnot, ?_, ?_, ?_⟩ <;>
    simp [download_file, hcond]

/-- C9, counterexample: the claim says a worker count below 1 is rejected
rather than used to build the pool.  In the code `--parallel 0` is passed
unchanged through `main` into `download_and_merge_segments` and handed to
the `ThreadPoolExecutor` constructor as `max_workers = 0`; the only
rejection is the library constructor's own `ValueError`, raised (uncaught)
at pool-construction time — the program itself validates nothing. -/
theorem c9_counterexample :
    main_parallel_value (some 0) = 0 ∧ (0 : Int) < 1 ∧
    threadPoolExecutorInit (main_parallel_value (some 0)) =
      .error "max_workers must be greater than 0" :=
  ⟨rfl, by norm_num, rfl⟩

/-- C9, amended: the worker count is configurable with default 4, but the
program performs no validation of its own: any value, including values
below 1, reaches the pool constructor unchanged, where the standard
library raises an uncaught `ValueError` for values ≤ 0 and builds the pool
otherwise. -/
theorem c9_amended (k : Int) :
    main_parallel_value none = 4 ∧
    main_parallel_value (some k) = k ∧
    (k ≤ 0 → threadPoolExecutorInit k = .error "max_workers must be greater than 0") ∧
    (0 < k → threadPoolExecutorInit k = .ok k) := by
  refine ⟨rfl, rfl, fun h => ?_, fun h => ?_⟩
  · rw [threadPoolExecutorInit, if_pos h]
  · rw [threadPoolExecutorInit, if_neg (by omega)]

/-- Witness for C9's amended statement at two concrete worker counts. -/
theorem c9_amended_witness :
    threadPoolExecutorInit (-3) = .error "max_workers must be greater than 0" ∧
    threadPoolExecutorInit 7 = .ok 7 :=
  ⟨(c9_amended (-3)).2.2.1 (by norm_num), (c9_amended 7).2.2.2 (by norm_num)⟩

/-- Completion schedule of ten successful segment jobs, in submission
order. -/
def comp10 : List CompletionEntry :=
  [⟨1, true⟩, ⟨2, true⟩, ⟨3, true⟩, ⟨4, true⟩, ⟨5, true⟩,
   ⟨6, true⟩, ⟨7, true⟩, ⟨8, true⟩, ⟨9, true⟩, ⟨10, true⟩]

/-- C1: the claim says the concat manifest lists the segment paths in
numeric index order.  Line 175 of src/arMa.py sorts the path *strings*
(`sorted(segment_files)`), which is lexicographic: with ten segments the
manifest order is 1, 10, 2, 3, …, 9 — not 1, 2, …, 10 — so downstream
concatenation receives the segments out of playback order. -/
theorem c1_lexicographic_concat_order :
    (download_and_merge_segments "d" "out" comp10 0 []).concatLines =
      ["file 'd/segment_1.ts'\n", "file 'd/segment_10.ts'\n", "file 'd/segment_2.ts'\n",
       "file 'd/segment_3.ts'\n", "file 'd/segment_4.ts'\n", "file 'd/segment_5.ts'\n",
       "file 'd/segment_6.ts'\n", "file 'd/segment_7.ts'\n", "file 'd/segment_8.ts'\n",
       "file 'd/segment_9.ts'\n"] ∧
    (download_and_merge_segments "d" "out" comp10 0 []).concatLines ≠
      ["file 'd/segment_1.ts'\n", "file 'd/segment_2.ts'\n", "file 'd/segment_3.ts'\n",
       "file 'd/segment_4.ts'\n", "file 'd/segment_5.ts'\n", "file 'd/segment_6.ts'\n",
       "file 'd/segment_7.ts'\n", "file 'd/segment_8.ts'\n", "file 'd/segment_9.ts'\n",
       "file 'd/segment_10.ts'\n"] := by
  constructor
  · decide
  · decide

/-- C2, counterexample: the claim says that on a non-zero muxer exit code
every intermediate segment file is retained.  The code runs `subprocess.run`
without ever reading the exit code and then deletes every segment file and
the concat file unconditionally: with exit code 1 nothing is retained. -/
theorem c2_counterexample :
    "d/segment_1.ts" ∉
      (download_and_merge_segments "d" "out" [⟨1, true⟩, ⟨2, true⟩] 1 []).files ∧
    "d/segment_2.ts" ∉
      (download_and_merge_segments "d" "out" [⟨1, true⟩, ⟨2, true⟩] 1 []).files ∧
    "d/out_concat.txt" ∉
      (download_and_merge_segments "d" "out" [⟨1, true⟩, ⟨2, true⟩] 1 []).files := by
  refine ⟨?_, ?_, ?_⟩ <;> decide

/-- C2, amended: after a fully successful download the assembler deletes
every intermediate segment file and the concat scratch file
unconditionally, whatever exit code the muxer subprocess returns — the
exit code is never examined. -/
theorem c2_amended (directory filename : String) (completion : List CompletionEntry)
    (ffmpegExit : Nat) (fs0 : List String)
    (hall : ∀ c ∈ completion, c.success = true) :
    ∀ c ∈ completion,
      local_filename directory c.idx ∉
        (download_and_merge_segments directory filename completion ffmpegExit fs0).files ∧
      directory ++ "/" ++ filename ++ "_concat.txt" ∉
        (download_and_merge_segments directory filename completion ffmpegExit fs0).files := by
  intro c hc
  rw [download_and_merge_ok directory filename completion ffmpegExit fs0 _
    (collectSegments_all_success directory completion hall)]
  constructor
  · intro hmem
    have := (List.mem_filter.mp hmem).2
    have h2 := of_decide_eq_true this
    exact h2.1 (List.mem_map_of_mem (fun c => local_filename directory c.idx) hc)
  · intro hmem
    have := (List.mem_filter.mp hmem).2
    have h2 := of_decide_eq_true this
    exact h2.2 rfl

/-- Witness for C2's amended statement: exit code 1, both segment files
and the concat file gone. -/
theorem c2_amended_witness :
    local_filename "d" 1 ∉
      (download_and_merge_segments "d" "out" [⟨1, true⟩, ⟨2, true⟩] 1 []).files ∧
    "d" ++ "/" ++ "out" ++ "_concat.txt" ∉
      (download_and_merge_segments "d" "out" [⟨1, true⟩, ⟨2, true⟩] 1 []).files :=
  c2_amended "d" "out" [⟨1, true⟩, ⟨2, true⟩] 1 [] (by decide) ⟨1, true⟩ (by decide)

/-- C7, counterexample: the claim says that on the first terminal failure
the orchestrator signals cancellation to segment jobs not yet started.  The
code never cancels anything: `sys.exit(1)` raises `SystemExit`, the
executor's `with`-block exit runs `shutdown(wait=True)` with no
`cancel_futures`, and every submitted job still runs.  With job 1 failing
first, job 2 executes anyway while the process exits with code 1 naming
index 1. -/
theorem c7_counterexample :
    (download_and_merge_segments "d" "out" [⟨1, false⟩, ⟨2, true⟩] 0 []).exitCode = some 1 ∧
    (download_and_merge_segments "d" "out" [⟨1, false⟩, ⟨2, true⟩] 0 []).failedIdx = some 1 ∧
    (download_and_merge_segments "d" "out" [⟨1, false⟩, ⟨2, true⟩] 0 []).executed = [1, 2] ∧
    2 ∈ (download_and_merge_segments "d" "out" [⟨1, false⟩, ⟨2, true⟩] 0 []).executed := by
  refine ⟨?_, ?_, ?_, ?_⟩ <;> decide

/-- C7, amended: when some segment job terminally fails, the orchestrator
terminates the process with exit status 1 and a message naming the first
failing index (in completion order), and exposes no list of successful
paths — but it cancels nothing: every submitted segment job still
executes. -/
theorem c7_amended (directory filename : String) (ffmpegExit : Nat) (fs0 : List String)
    (pre : List CompletionEntry) (c : CompletionEntry) (post : List CompletionEntry)
    (hpre : ∀ x ∈ pre, x.success = true) (hc : c.success = false) :
    (download_and_merge_segments directory filename (pre ++ c :: post) ffmpegExit fs0).exitCode
      = some 1 ∧
    (download_and_merge_segments directory filename (pre ++ c :: post) ffmpegExit fs0).failedIdx
      = some c.idx ∧
    (download_and_merge_segments directory filename (pre ++ c :: post) ffmpegExit fs0).segment_files
      = [] ∧
    (download_and_merge_segments directory filename (pre ++ c :: post) ffmpegExit fs0).mp4_file
      = none ∧
    (download_and_merge_segments directory filename (pre ++ c :: post) ffmpegExit fs0).executed
      = (pre ++ c :: post).map (·.idx) := by
  rw [download_and_merge_error directory filename (pre ++ c :: post) ffmpegExit fs0 c.idx
    (collectSegments_first_failure directory pre c post hpre hc)]
  exact ⟨rfl, rfl, rfl, rfl, rfl⟩

/-- Witness for C7's amended statement: job 2 completes first, job 1 fails,
job 3 still executes; exit 1 names index 1. -/
theorem c7_amended_witness :
    (download_and_merge_segments "d" "out" [⟨2, true⟩, ⟨1, false⟩, ⟨3, true⟩] 0 []).exitCode
      = some 1 ∧
    (download_and_merge_segments "d" "out" [⟨2, true⟩, ⟨1, false⟩, ⟨3, true⟩] 0 []).failedIdx
      = some 1 ∧
    (download_and_merge_segments "d" "out" [⟨2, true⟩, ⟨1, false⟩, ⟨3, true⟩] 0 []).segment_files
      = [] ∧
    (download_and_merge_segments "d" "out" [⟨2, true⟩, ⟨1, false⟩, ⟨3, true⟩] 0 []).mp4_file
      = none ∧
    (download_and_merge_segments "d" "out" [⟨2, true⟩, ⟨1, false⟩, ⟨3, true⟩] 0 []).executed
      = [2, 1, 3] :=
  c7_amended "d" "out" 0 [] [⟨2, true⟩] ⟨1, false⟩ [⟨3, true⟩] (by decide) rfl

/-- Initial filesystem for the C3 counterexample: segment 1's temp file
already holds the first two bytes of the (true) four-byte segment
`[1, 2, 3, 4]`. -/
def fsC3 : FS := fun q => if q = temp_filename "d" 1 then some [1, 2] else none

/-- C3, counterexample: the claim says that when the server ignores the
requested byte range the fetcher restarts from byte zero.  The code never
inspects the status or headers for range support: a 200 response carrying
the full body passes `raise_for_status`, the body is appended after the
existing bytes (`open(temp, 'ab')`), and the corrupted file — the partial
prefix followed by the whole body — is renamed to the final name. -/
theorem c3_counterexample :
    (download_segment fsC3 "d" 1 1 [⟨200, some 4, [[1, 2, 3, 4]], false⟩] 5).result =
      .ok (local_filename "d" 1) ∧
    (download_segment fsC3 "d" 1 1 [⟨200, some 4, [[1, 2, 3, 4]], false⟩] 5).fs
      (local_filename "d" 1) = some ([1, 2] ++ [1, 2, 3, 4]) ∧
    ([1, 2] ++ [1, 2, 3, 4] : List Nat) ≠ [1, 2, 3, 4] := by
  refine ⟨rfl, by decide, by decide⟩

/-- C3, amended: when a resumed fetch is answered by any réponse that
passes `raise_for_status` and completes — whether the server
honored the range or ignored it — the fetcher appends the delivered body after the
already-present bytes and renames the result to the final name; there is
no restart-from-zero detection. -/
theorem c3_appends_after_partial (fs0 : FS) (directory : String) (idx total : Nat)
    (r : HttpResponse) (rest : List HttpResponse) (retries : Nat) (p : List Nat)
    (hp : fs0 (temp_filename directory idx) = some p)
    (hok : r.status < 400) (hm : r.midError = false) (hr : 1 ≤ retries) :
    (download_segment fs0 directory idx total (r :: rest) retries).result =
      .ok (local_filename directory idx) ∧
    (download_segment fs0 directory idx total (r :: rest) retries).fs
      (local_filename directory idx) = some (p ++ r.chunks.flatten) := by
  obtain ⟨k, rfl⟩ : ∃ k, retries = k + 1 := ⟨retries - 1, by omega⟩
  rw [download_segment_eq, List.take_succ_cons]
  simp only [segLoop]
  rw [if_pos hok, if_neg (by rw [hm]; exact Bool.false_ne_true)]
  refine ⟨rfl, ?_⟩
  simp only [applyEvent, if_pos rfl]
  have hblk := applyEvents_block fs0 (temp_filename directory idx) r.chunks
  rw [hp] at hblk
  simpa using hblk

/-- Initial filesystem for the C3 amended witness: the temp file of
segment 3 holds one byte. -/
def fsC3w : FS := fun q => if q = temp_filename "d" 3 then some [9] else none

/-- Witness for C3's amended statement: a 200 response delivering the full
body `[9, 8, 7]` after a one-byte partial leaves `[9, 9, 8, 7]` under the
final name. -/
theorem c3_appends_after_partial_witness :
    (download_segment fsC3w "d" 3 1 [⟨200, some 3, [[9, 8, 7]], false⟩] 5).result =
      .ok (local_filename "d" 3) ∧
    (download_segment fsC3w "d" 3 1 [⟨200, some 3, [[9, 8, 7]], false⟩] 5).fs
      (local_filename "d" 3) = some ([9] ++ ([[9, 8, 7]] : List (List Nat)).flatten) :=
  c3_appends_after_partial fsC3w "d" 3 1 ⟨200, some 3, [[9, 8, 7]], false⟩ [] 5 [9]
    rfl (by norm_num) rfl (by norm_num)

/-- C4: the fetcher writes only to the temporary path, which differs from
the final path; every state reached after a filesystem operation has the
temporary or the final file present (so from the first byte written onward
the two are never both absent); and a successful run returns the final
path with a single `os.rename` of the temp file onto the final name as its
last filesystem operation — the one point at which the segment becomes
complete. -/
theorem c4_temp_file_and_atomic_rename (fs0 : FS) (directory : String) (idx total : Nat)
    (resps : List HttpResponse) (retries : Nat) :
    temp_filename directory idx ≠ local_filename directory idx ∧
    (∀ ev ∈ (download_segment fs0 directory idx total resps retries).events,
      ev = FsEvent.openAppend (temp_filename directory idx) ∨
      (∃ bs, ev = FsEvent.write (temp_filename directory idx) bs) ∨
      ev = FsEvent.rename (temp_filename directory idx) (local_filename directory idx)) ∧
    (∀ σ ∈ statesFrom fs0 (download_segment fs0 directory idx total resps retries).events,
      σ (temp_filename directory idx) ≠ none ∨ σ (local_filename directory idx) ≠ none) ∧
    (∀ path, (download_segment fs0 directory idx total resps retries).result = .ok path →
      path = local_filename directory idx ∧
      (download_segment fs0 directory idx total resps retries).events.getLast? =
        some (FsEvent.rename (temp_filename directory idx) (local_filename directory idx))) := by
  rw [download_segment_eq]
  exact ⟨temp_ne_local directory idx,
    fun ev h => segLoop_events_shape directory idx retries _ _ (resps.take retries) 1 fs0 ev h,
    fun σ h => segLoop_states directory idx retries _ _ (resps.take retries) 1 fs0 σ h,
    fun path h => segLoop_result_ok directory idx retries _ _ (resps.take retries) 1 fs0 path h⟩

/-- Witness for C4: a clean one-attempt success; the run returns the final
path and its last operation is the rename. -/
theorem c4_temp_file_and_atomic_rename_witness :
    "d/segment_1.ts" = local_filename "d" 1 ∧
    (download_segment (fun _ => none) "d" 1 1 [⟨200, some 2, [[5, 6]], false⟩]
        MAX_RETRIES).events.getLast? =
      some (FsEvent.rename (temp_filename "d" 1) (local_filename "d" 1)) :=
  (c4_temp_file_and_atomic_rename (fun _ => none) "d" 1 1 [⟨200, some 2, [[5, 6]], false⟩]
    MAX_RETRIES).2.2.2 "d/segment_1.ts" rfl

theorem segLoop_fail_temp (directory : String) (idx retries : Nat) (headers : Option String)
    (downloaded : Nat) :
    ∀ (resps : List HttpResponse) (attempt : Nat) (fs : FS) (l : List Nat),
      (∀ r ∈ resps, 400 ≤ r.status ∨ r.midError = true) →
      fs (temp_filename directory idx) = some l →
      ∃ q, (segLoop directory idx retries headers downloaded resps attempt fs).fs
        (temp_filename directory idx) = some (l ++ q) := by
  intro resps
  induction resps with
  | nil =>
    intro attempt fs l _ h
    refine ⟨[], ?_⟩
    simp [segLoop, h]
  | cons r rest ih =>
    intro attempt fs l hfail h
    have hrest : ∀ x ∈ rest, 400 ≤ x.status ∨ x.midError = true :=
      fun x hx => hfail x (List.mem_cons_of_mem r hx)
    simp only [segLoop]
    by_cases hst : r.status < 400
    · rw [if_pos hst]
      have hm : r.midError = true := by
        rcases hfail r (List.mem_cons_self r rest) with hh | hh
        · omega
        · exact hh
      rw [if_pos hm]
      simp only
      have hblk := applyEvents_block fs (temp_filename directory idx) r.chunks
      rw [h] at hblk
      simp only [Option.getD_some] at hblk
      obtain ⟨q, hq⟩ := ih (attempt + 1) _ (l ++ r.chunks.flatten) hrest hblk
      refine ⟨r.chunks.flatten ++ q, ?_⟩
      rwa [← List.append_assoc]
    · rw [if_neg hst]
      simp only
      exact ih (attempt + 1) fs l hrest h

/-- C5: when every attempt fails with a transient error (bad status or
mid-transfer network failure), the fetcher sleeps
`RETRY_BACKOFF ^ attempt` seconds after each failed attempt
(attempts 1, 2, …, retries), finally raises the terminal
`RuntimeError`, and the temporary file still holds the original partial
bytes (possibly extended by bytes received during failed attempts) — it is
never deleted on failure. -/
theorem c5_backoff_and_partial_kept (fs0 : FS) (directory : String)
    (idx total retries : Nat) (resps : List HttpResponse) (p : List Nat)
    (hlen : retries ≤ resps.length)
    (hfail : ∀ r ∈ resps.take retries, 400 ≤ r.status ∨ r.midError = true)
    (hp : fs0 (temp_filename directory idx) = some p) :
    (download_segment fs0 directory idx total resps retries).result =
      .error ("Failed to download segment " ++ Nat.repr idx ++ " after " ++
        Nat.repr retries ++ " retries.") ∧
    (download_segment fs0 directory idx total resps retries).sleeps =
      (List.range' 1 retries).map (fun a => RETRY_BACKOFF ^ a) ∧
    ∃ q, (download_segment fs0 directory idx total resps retries).fs
      (temp_filename directory idx) = some (p ++ q) := by
  rw [download_segment_eq]
  obtain ⟨hres, hsl⟩ :=
    segLoop_all_fail directory idx retries _ _ (resps.take retries) 1 fs0 hfail
  refine ⟨hres, ?_, ?_⟩
  · rw [hsl, List.length_take, Nat.min_eq_left hlen]
  · exact segLoop_fail_temp directory idx retries _ _ (resps.take retries) 1 fs0 p hfail hp

/-- Initial filesystem for the C5 witness: segment 1's temp file holds one
byte. -/
def fsC5 : FS := fun q => if q = temp_filename "d" 1 then some [7] else none

/-- Witness for C5: two attempts, one HTTP 500 and one mid-transfer
failure after delivering a byte; the run errors out, sleeps 2¹ then 2²
seconds, and the partial file is still on disk. -/
theorem c5_backoff_and_partial_kept_witness :
    (download_segment fsC5 "d" 1 1
        [⟨500, none, [], false⟩, ⟨200, some 9, [[4]], true⟩] 2).result =
      .error ("Failed to download segment " ++ Nat.repr 1 ++ " after " ++
        Nat.repr 2 ++ " retries.") ∧
    (download_segment fsC5 "d" 1 1
        [⟨500, none, [], false⟩, ⟨200, some 9, [[4]], true⟩] 2).sleeps =
      (List.range' 1 2).map (fun a => RETRY_BACKOFF ^ a) ∧
    ∃ q, (download_segment fsC5 "d" 1 1
        [⟨500, none, [], false⟩, ⟨200, some 9, [[4]], true⟩] 2).fs
      (temp_filename "d" 1) = some ([7] ++ q) :=
  c5_backoff_and_partial_kept fsC5 "d" 1 1 2
    [⟨500, none, [], false⟩, ⟨200, some 9, [[4]], true⟩] [7]
    (by norm_num) (by decide) rfl

/-- C8: if the temp file already holds `S > 0` bytes when the fetch
starts, every HTTP request of the run carries `Range: bytes=S-`; every
expected-total the code computes equals the response's Content-Length plus
`S`, and is unknown exactly when the response omits the header; and all
received bytes are appended after the existing `S` bytes (ending up under
the temp or, after the final rename, the final name). -/
theorem c8_resume_range_and_total (fs0 : FS) (directory : String)
    (idx total retries : Nat) (resps : List HttpResponse) (p : List Nat)
    (hp : fs0 (temp_filename directory idx) = some p) (hS : 0 < p.length) :
    (∀ hd ∈ (download_segment fs0 directory idx total resps retries).requests,
      hd = some ("bytes=" ++ Nat.repr p.length ++ "-")) ∧
    (∀ t ∈ (download_segment fs0 directory idx total resps retries).totals,
      ∃ r ∈ resps.take retries, r.status < 400 ∧
        t = r.contentLength.map (fun l => l + p.length)) ∧
    (∃ q, (download_segment fs0 directory idx total resps retries).fs
        (temp_filename directory idx) = some (p ++ q) ∨
      (download_segment fs0 directory idx total resps retries).fs
        (local_filename directory idx) = some (p ++ q)) := by
  rw [download_segment_eq]
  have hdl : ((fs0 (temp_filename directory idx)).map List.length).getD 0 = p.length := by
    rw [hp]
    rfl
  rw [hdl, if_pos hS]
  exact ⟨fun hd h => segLoop_requests directory idx retries _ _ (resps.take retries) 1 fs0 hd h,
    fun t h => segLoop_totals directory idx retries _ _ (resps.take retries) 1 fs0 t h,
    segLoop_fs_grows directory idx retries _ _ (resps.take retries) 1 fs0 p hp⟩

/-- Initial filesystem for the C8 witness: segment 2's temp file holds two
bytes. -/
def fsC8 : FS := fun q => if q = temp_filename "d" 2 then some [7, 7] else none

/-- Witness for C8: a 206 response finishing the file; the two resumed
bytes stay in front of the delivered ones. -/
theorem c8_resume_range_and_total_witness :
    ∃ q, (download_segment fsC8 "d" 2 1 [⟨206, some 3, [[1, 2, 3]], false⟩] 5).fs
        (temp_filename "d" 2) = some ([7, 7] ++ q) ∨
      (download_segment fsC8 "d" 2 1 [⟨206, some 3, [[1, 2, 3]], false⟩] 5).fs
        (local_filename "d" 2) = some ([7, 7] ++ q) :=
  (c8_resume_range_and_total fsC8 "d" 2 1 5 [⟨206, some 3, [[1, 2, 3]], false⟩] [7, 7]
    rfl (by norm_num)).2.2
